import Mathlib

/-!
# Verification of the `bimap-ts` bidirectional map

Shallow embedding of the TypeScript `BiMap<K, V>` container
(`src/bimap/index.ts` of the repository).  A JavaScript `Map` is modelled
as an insertion-ordered association list (`JsMap`):

* `Map.get` returns the value of the first (unique) entry with the key;
* `Map.set` updates an existing entry in place (keeping its position) or
  appends a new entry at the end;
* `Map.delete` removes the entry with the key;
* iteration follows the list order.

The `BiMap` structure holds the two synchronized tables `key2value` and
`value2key`, and every public method of the class is translated directly.
Methods that throw (`add`, `addAll`) return the resulting state paired
with an optional `BiMapError`, the state being the one the container is
left in when the exception propagates.
-/

set_option autoImplicit false

/-- Insertion-ordered association list modelling a JavaScript `Map K V`. -/
abbrev JsMap (K V : Type) := List (K × V)

namespace JsMap

variable {K V : Type} [DecidableEq K]

/-- `Map.prototype.get`: the value of the entry with key `k`, if any. -/
def get : JsMap K V → K → Option V
  | [], _ => none
  | (k', v) :: rest, k => if k' = k then some v else get rest k

/-- `Map.prototype.has`. -/
def has (m : JsMap K V) (k : K) : Bool :=
  (m.get k).isSome

/-- `Map.prototype.delete` (state part): removes the entry with key `k`. -/
def delete : JsMap K V → K → JsMap K V
  | [], _ => []
  | (k', v) :: rest, k =>
    if k' = k then delete rest k else (k', v) :: delete rest k

/-- Helper for `set`: overwrite the value of the existing entry with key
`k`, keeping its position in the order. -/
def replace : JsMap K V → K → V → JsMap K V
  | [], _, _ => []
  | (k', v') :: rest, k, v =>
    if k' = k then (k, v) :: replace rest k v else (k', v') :: replace rest k v

/-- `Map.prototype.set`: update the existing entry in place, or append a
fresh entry at the end of the iteration order. -/
def set (m : JsMap K V) (k : K) (v : V) : JsMap K V :=
  if m.has k then m.replace k v else m ++ [(k, v)]

/-- `Map.prototype.keys`, as the ordered list of keys. -/
def keysList (m : JsMap K V) : List K :=
  m.map Prod.fst

end JsMap

namespace JsMap

variable {K V : Type} [DecidableEq K]

@[simp]
theorem get_nil (k : K) : get ([] : JsMap K V) k = none := rfl

@[simp]
theorem get_cons (a : K) (b : V) (rest : JsMap K V) (k : K) :
    get ((a, b) :: rest) k = if a = k then some b else get rest k := rfl

@[simp]
theorem delete_nil (k : K) : delete ([] : JsMap K V) k = [] := rfl

@[simp]
theorem delete_cons (a : K) (b : V) (rest : JsMap K V) (k : K) :
    delete ((a, b) :: rest) k =
      if a = k then delete rest k else (a, b) :: delete rest k := rfl

theorem get_delete (m : JsMap K V) (k k' : K) :
    (m.delete k).get k' = if k' = k then none else m.get k' := by
  induction m with
  | nil => simp
  | cons p rest ih =>
    obtain ⟨a, b⟩ := p
    by_cases hak : a = k
    · subst hak
      by_cases hk : k' = a
      · subst hk
        simp [ih]
      · have hne : a ≠ k' := fun h => hk h.symm
        simp [hk, hne, ih]
    · by_cases hak' : a = k'
      · subst hak'
        have hne : ¬ a = k := hak
        simp [hne, ih, fun h : a = k => hak h]
      · simp [hak, hak', ih]

theorem delete_of_get_none {m : JsMap K V} {k : K} (h : m.get k = none) :
    m.delete k = m := by
  induction m with
  | nil => rfl
  | cons p rest ih =>
    obtain ⟨a, b⟩ := p
    by_cases hak : a = k
    · simp [hak] at h
    · simp [hak] at h ⊢
      exact ih h

theorem get_replace (m : JsMap K V) (k k' : K) (v : V) :
    (m.replace k v).get k' =
      if k' = k then (m.get k).map (fun _ => v) else m.get k' := by
  induction m with
  | nil => simp [replace]
  | cons p rest ih =>
    obtain ⟨a, b⟩ := p
    by_cases hak : a = k
    · subst hak
      by_cases hk : k' = a
      · subst hk
        simp [replace]
      · have hne : a ≠ k' := fun h => hk h.symm
        simp [replace, hk, hne, ih]
    · by_cases hak' : a = k'
      · subst hak'
        have hne : ¬ a = k := hak
        simp [replace, hne, ih]
      · simp [replace, hak, hak', ih]

theorem get_append (m₁ m₂ : JsMap K V) (k : K) :
    ((m₁ ++ m₂ : JsMap K V)).get k =
      match m₁.get k with
      | some v => some v
      | none => m₂.get k := by
  induction m₁ with
  | nil => simp
  | cons p rest ih =>
    obtain ⟨a, b⟩ := p
    by_cases hak : a = k <;> simp [hak, ih]

theorem get_set (m : JsMap K V) (k k' : K) (v : V) :
    (m.set k v).get k' = if k' = k then some v else m.get k' := by
  unfold set has
  by_cases hk : (m.get k).isSome
  · obtain ⟨w, hw⟩ := Option.isSome_iff_exists.mp hk
    simp [hk, get_replace, hw]
  · have hnone : m.get k = none := Option.not_isSome_iff_eq_none.mp (by simpa using hk)
    by_cases h : k' = k
    · subst h
      simp [hk, get_append, hnone]
    · have hne : k ≠ k' := fun hh => h hh.symm
      simp only [hk, if_false, Bool.false_eq_true, get_append, if_neg h]
      cases m.get k' <;> simp [hne]

@[simp]
theorem keysList_nil : keysList ([] : JsMap K V) = [] := rfl

@[simp]
theorem keysList_cons (a : K) (b : V) (rest : JsMap K V) :
    keysList ((a, b) :: rest) = a :: keysList rest := rfl

theorem get_eq_none_iff (m : JsMap K V) (k : K) :
    m.get k = none ↔ k ∉ m.keysList := by
  induction m with
  | nil => simp
  | cons p rest ih =>
    obtain ⟨a, b⟩ := p
    by_cases hak : a = k
    · simp [hak, ih]
    · have hka : ¬ k = a := fun h => hak h.symm
      simp [hak, hka, ih]

theorem get_some_mem {m : JsMap K V} {k : K} {v : V} (h : m.get k = some v) :
    (k, v) ∈ m := by
  induction m with
  | nil => simp at h
  | cons p rest ih =>
    obtain ⟨a, b⟩ := p
    by_cases hak : a = k
    · subst hak
      simp at h
      simp [h]
    · simp [hak] at h
      simp [ih h]

theorem mem_get {m : JsMap K V} (hnd : m.keysList.Nodup) {k : K} {v : V}
    (h : (k, v) ∈ m) : m.get k = some v := by
  induction m with
  | nil => simp at h
  | cons p rest ih =>
    obtain ⟨a, b⟩ := p
    simp at hnd
    rcases List.mem_cons.mp h with h1 | h1
    · cases h1
      simp
    · have hak : a ≠ k := by
        intro hh
        subst hh
        exact hnd.1 (by simpa [keysList] using List.mem_map_of_mem Prod.fst h1)
      simp [hak]
      exact ih hnd.2 h1

theorem delete_sublist (m : JsMap K V) (k : K) : (m.delete k).Sublist m := by
  induction m with
  | nil => simp
  | cons p rest ih =>
    obtain ⟨a, b⟩ := p
    by_cases hak : a = k
    · simp only [delete_cons, if_pos hak]
      exact ih.cons _
    · simp only [delete_cons, if_neg hak]
      exact ih.cons₂ _

theorem keysList_sublist_delete (m : JsMap K V) (k : K) :
    (m.delete k).keysList.Sublist m.keysList :=
  (delete_sublist m k).map Prod.fst

theorem nodup_delete {m : JsMap K V} (hnd : m.keysList.Nodup) (k : K) :
    (m.delete k).keysList.Nodup :=
  hnd.sublist (keysList_sublist_delete m k)

theorem keysList_replace (m : JsMap K V) (k : K) (v : V) :
    (m.replace k v).keysList = m.keysList := by
  induction m with
  | nil => rfl
  | cons p rest ih =>
    obtain ⟨a, b⟩ := p
    by_cases hak : a = k
    · subst hak
      simp [replace, ih]
    · simp [replace, hak, ih]

theorem keysList_set (m : JsMap K V) (k : K) (v : V) :
    (m.set k v).keysList =
      if m.has k then m.keysList else m.keysList ++ [k] := by
  unfold set
  by_cases hk : m.has k
  · simp [hk, keysList_replace m k v]
  · simp [hk, keysList]

theorem nodup_set {m : JsMap K V} (hnd : m.keysList.Nodup) {k : K}
    (hk : m.get k = none) (v : V) : (m.set k v).keysList.Nodup := by
  rw [keysList_set]
  have : ¬ m.has k := by simp [has, hk]
  simp only [if_neg this]
  have hmem : k ∉ m.keysList := (get_eq_none_iff m k).mp hk
  simpa [List.nodup_append] using ⟨hnd, hmem⟩

theorem length_replace (m : JsMap K V) (k : K) (v : V) :
    (m.replace k v).length = m.length := by
  induction m with
  | nil => rfl
  | cons p rest ih =>
    obtain ⟨a, b⟩ := p
    by_cases hak : a = k <;> simp [replace, hak, ih]

theorem length_set (m : JsMap K V) (k : K) (v : V) :
    (m.set k v).length = if m.has k then m.length else m.length + 1 := by
  unfold set
  by_cases hk : m.has k <;> simp [hk, length_replace]

theorem length_delete_of_get_some {m : JsMap K V} (hnd : m.keysList.Nodup)
    {k : K} {v : V} (h : m.get k = some v) :
    (m.delete k).length + 1 = m.length := by
  induction m with
  | nil => simp at h
  | cons p rest ih =>
    obtain ⟨a, b⟩ := p
    simp at hnd
    by_cases hak : a = k
    · subst hak
      have hga : get rest a = none := (get_eq_none_iff rest a).mpr hnd.1
      simp [delete_of_get_none hga]
    · simp [hak] at h
      simp [hak, ih hnd.2 h]

theorem mem_delete {m : JsMap K V} {k : K} {p : K × V} :
    p ∈ m.delete k ↔ p ∈ m ∧ p.1 ≠ k := by
  induction m with
  | nil => simp
  | cons q rest ih =>
    obtain ⟨a, b⟩ := q
    by_cases hak : a = k
    · subst hak
      rw [delete_cons, if_pos rfl, ih, List.mem_cons]
      constructor
      · rintro ⟨hm, hne⟩
        exact ⟨Or.inr hm, hne⟩
      · rintro ⟨he | hm, hne⟩
        · exact absurd (by rw [he]) hne
        · exact ⟨hm, hne⟩
    · rw [delete_cons, if_neg hak, List.mem_cons, List.mem_cons, ih]
      constructor
      · rintro (he | ⟨hm, hne⟩)
        · refine ⟨Or.inl he, ?_⟩
          rw [he]
          exact hak
        · exact ⟨Or.inr hm, hne⟩
      · rintro ⟨he | hm, hne⟩
        · exact Or.inl he
        · exact Or.inr ⟨hm, hne⟩

end JsMap

/-- The four error conditions of the library (`src/bimap/error.ts`):
`BiMapNoSuchKeyError`, `BiMapNoSuchValueError`, `BiMapKeyConflictError`,
`BiMapValueConflictError`. -/
inductive BiMapError (K V : Type) where
  | noSuchKey (key : K)
  | noSuchValue (value : V)
  | keyConflict (key : K)
  | valueConflict (value : V)
deriving DecidableEq, Repr

/-- The `BiMap<K, V>` class: two synchronized tables. -/
structure BiMap (K V : Type) where
  key2value : JsMap K V
  value2key : JsMap V K
deriving DecidableEq, Repr

namespace BiMap

variable {K V : Type} [DecidableEq K] [DecidableEq V]

/-- `new BiMap()`: both tables empty. -/
def empty : BiMap K V :=
  ⟨[], []⟩

/-- `get size()`. -/
def size (m : BiMap K V) : Nat :=
  m.key2value.length

/-- `clear()`. -/
def clear (_ : BiMap K V) : BiMap K V :=
  ⟨[], []⟩

/-- `hasKey(key)`. -/
def hasKey (m : BiMap K V) (k : K) : Bool :=
  m.key2value.has k

/-- `hasValue(value)`. -/
def hasValue (m : BiMap K V) (v : V) : Bool :=
  m.value2key.has v

/-- `assertHasKey(key)`: throws `BiMapNoSuchKeyError` when absent. -/
def assertHasKey (m : BiMap K V) (k : K) : Option (BiMapError K V) :=
  if m.hasKey k then none else some (.noSuchKey k)

/-- `assertHasValue(value)`: throws `BiMapNoSuchValueError` when absent. -/
def assertHasValue (m : BiMap K V) (v : V) : Option (BiMapError K V) :=
  if m.hasValue v then none else some (.noSuchValue v)

/-- `deleteKey(key)`: the `hasKey` guard of the source is the `some`
case of the lookup; on hit both tables drop the pair. -/
def deleteKey (m : BiMap K V) (k : K) : BiMap K V × Bool :=
  match m.key2value.get k with
  | some v => (⟨m.key2value.delete k, m.value2key.delete v⟩, true)
  | none => (m, false)

/-- `deleteValue(value)`. -/
def deleteValue (m : BiMap K V) (v : V) : BiMap K V × Bool :=
  match m.value2key.get v with
  | some k => (⟨m.key2value.delete k, m.value2key.delete v⟩, true)
  | none => (m, false)

/-- `deleteKeys(keys)`: one `deleteKey` per element, counting hits. -/
def deleteKeys : BiMap K V → List K → BiMap K V × Nat
  | m, [] => (m, 0)
  | m, k :: rest =>
    let r := m.deleteKey k
    let r' := deleteKeys r.1 rest
    (r'.1, (if r.2 then 1 else 0) + r'.2)

/-- `deleteValues(values)`. -/
def deleteValues : BiMap K V → List V → BiMap K V × Nat
  | m, [] => (m, 0)
  | m, v :: rest =>
    let r := m.deleteValue v
    let r' := deleteValues r.1 rest
    (r'.1, (if r.2 then 1 else 0) + r'.2)

/-- `getValue(key)`. -/
def getValue (m : BiMap K V) (k : K) : Option V :=
  m.key2value.get k

/-- `getKey(value)`. -/
def getKey (m : BiMap K V) (v : V) : Option K :=
  m.value2key.get v

/-- `keys()`: iterates `key2value` keys. -/
def keys (m : BiMap K V) : List K :=
  m.key2value.keysList

/-- `values()`: iterates `value2key` keys. -/
def values (m : BiMap K V) : List V :=
  m.value2key.keysList

/-- `entries()`: iterates `key2value` entries. -/
def entries (m : BiMap K V) : JsMap K V :=
  m.key2value

/-- `clone()`: a new container carrying a copy of both tables. -/
def clone (m : BiMap K V) : BiMap K V :=
  ⟨m.key2value, m.value2key⟩

/-- `set(key, value)`: evict any pair with the same key, then any pair
with the same value, then write the pair into both tables. -/
def set (m : BiMap K V) (k : K) (v : V) : BiMap K V :=
  let m1 := if m.hasKey k then (m.deleteKey k).1 else m
  let m2 := if m1.hasValue v then (m1.deleteValue v).1 else m1
  ⟨m2.key2value.set k v, m2.value2key.set v k⟩

/-- `add(key, value)`: key conflict checked first, then value conflict;
the container is untouched on either failure. -/
def add (m : BiMap K V) (k : K) (v : V) :
    BiMap K V × Option (BiMapError K V) :=
  if m.hasKey k then (m, some (.keyConflict k))
  else if m.hasValue v then (m, some (.valueConflict v))
  else (⟨m.key2value.set k v, m.value2key.set v k⟩, none)

/-- The accepted source shapes of `setAll` / `addAll` / `from`: another
`BiMap`, a `Map`, an array of pairs, or a plain record object.  The
latter three carry their pairs in iteration order. -/
inductive Source (K V : Type) where
  | bimap (m : BiMap K V)
  | map (pairs : List (K × V))
  | array (pairs : List (K × V))
  | record (pairs : List (K × V))

/-- The pair sequence a source is iterated as (a `BiMap` source is
iterated with `forEach`, i.e. its `key2value` entries). -/
def Source.toList : Source K V → List (K × V)
  | .bimap b => b.entries
  | .map ps => ps
  | .array ps => ps
  | .record ps => ps

/-- The shared loop of `setAll`: one `set` per pair, in order. -/
def setAllList : BiMap K V → List (K × V) → BiMap K V
  | m, [] => m
  | m, (k, v) :: rest => setAllList (m.set k v) rest

/-- `setAll(pairs)`: each accepted shape iterates its pairs and calls
`set` on each. -/
def setAll (m : BiMap K V) (s : Source K V) : BiMap K V :=
  match s with
  | .bimap b => setAllList m b.entries
  | .map ps => setAllList m ps
  | .array ps => setAllList m ps
  | .record ps => setAllList m ps

/-- The shared loop of `addAll`: one `add` per pair, in order; an error
aborts the loop, keeping the pairs already applied. -/
def addAllList : BiMap K V → List (K × V) → BiMap K V × Option (BiMapError K V)
  | m, [] => (m, none)
  | m, (k, v) :: rest =>
    match m.add k v with
    | (m', none) => addAllList m' rest
    | (m', some e) => (m', some e)

/-- `addAll(pairs)`: each accepted shape iterates its pairs and calls
`add` on each. -/
def addAll (m : BiMap K V) (s : Source K V) :
    BiMap K V × Option (BiMapError K V) :=
  match s with
  | .bimap b => addAllList m b.entries
  | .map ps => addAllList m ps
  | .array ps => addAllList m ps
  | .record ps => addAllList m ps

/-- `BiMap.from(pairs)` (named `from'`, `from` being a Lean keyword):
`new BiMap<K, V>().addAll(pairs)`. -/
def from' (s : Source K V) : BiMap K V × Option (BiMapError K V) :=
  (empty : BiMap K V).addAll s

/-- The states reachable from the empty container by the public mutating
interface (for the fallible operations, also the state left behind by a
failed call). -/
inductive Reachable : BiMap K V → Prop where
  | empty : Reachable (empty : BiMap K V)
  | set (m : BiMap K V) (k : K) (v : V) : Reachable m → Reachable (m.set k v)
  | add (m : BiMap K V) (k : K) (v : V) : Reachable m → Reachable (m.add k v).1
  | setAll (m : BiMap K V) (s : Source K V) : Reachable m → Reachable (m.setAll s)
  | addAll (m : BiMap K V) (s : Source K V) : Reachable m → Reachable (m.addAll s).1
  | deleteKey (m : BiMap K V) (k : K) : Reachable m → Reachable (m.deleteKey k).1
  | deleteValue (m : BiMap K V) (v : V) : Reachable m → Reachable (m.deleteValue v).1
  | deleteKeys (m : BiMap K V) (ks : List K) : Reachable m → Reachable (m.deleteKeys ks).1
  | deleteValues (m : BiMap K V) (vs : List V) : Reachable m → Reachable (m.deleteValues vs).1
  | clear (m : BiMap K V) : Reachable m → Reachable m.clear
  | clone (m : BiMap K V) : Reachable m → Reachable m.clone

/-- Well-formedness of a container: both tables have pairwise distinct
keys and each entry of one table is mirrored in the other.  This is the
dual-table synchronization invariant of the design. -/
def WF (m : BiMap K V) : Prop :=
  m.key2value.keysList.Nodup ∧ m.value2key.keysList.Nodup ∧
    (∀ p ∈ m.key2value, m.value2key.get p.2 = some p.1) ∧
    (∀ p ∈ m.value2key, m.key2value.get p.2 = some p.1)

instance (m : BiMap K V) : Decidable m.WF := by
  unfold WF
  infer_instance

theorem WF.nodup_keys {m : BiMap K V} (h : m.WF) : m.key2value.keysList.Nodup :=
  h.1

theorem WF.nodup_values {m : BiMap K V} (h : m.WF) : m.value2key.keysList.Nodup :=
  h.2.1

theorem WF.mirror_kv {m : BiMap K V} (h : m.WF) :
    ∀ p ∈ m.key2value, m.value2key.get p.2 = some p.1 :=
  h.2.2.1

theorem WF.mirror_vk {m : BiMap K V} (h : m.WF) :
    ∀ p ∈ m.value2key, m.key2value.get p.2 = some p.1 :=
  h.2.2.2

/-- Under `WF`, the two tables are exact inverses of one another. -/
theorem WF.get_iff {m : BiMap K V} (h : m.WF) (k : K) (v : V) :
    m.key2value.get k = some v ↔ m.value2key.get v = some k := by
  constructor
  · intro hg
    exact h.mirror_kv (k, v) (JsMap.get_some_mem hg)
  · intro hg
    exact h.mirror_vk (v, k) (JsMap.get_some_mem hg)

theorem hasKey_eq (m : BiMap K V) (k : K) :
    m.hasKey k = (m.key2value.get k).isSome := rfl

theorem hasValue_eq (m : BiMap K V) (v : V) :
    m.hasValue v = (m.value2key.get v).isSome := rfl

theorem getValue_eq (m : BiMap K V) (k : K) :
    m.getValue k = m.key2value.get k := rfl

theorem getKey_eq (m : BiMap K V) (v : V) :
    m.getKey v = m.value2key.get v := rfl

theorem hasKey_false_iff {m : BiMap K V} {k : K} :
    m.hasKey k = false ↔ m.key2value.get k = none := by
  rw [hasKey_eq]
  cases m.key2value.get k <;> simp

theorem hasValue_false_iff {m : BiMap K V} {v : V} :
    m.hasValue v = false ↔ m.value2key.get v = none := by
  rw [hasValue_eq]
  cases m.value2key.get v <;> simp

theorem hasKey_true_iff {m : BiMap K V} {k : K} :
    m.hasKey k = true ↔ ∃ v, m.key2value.get k = some v := by
  rw [hasKey_eq]
  cases m.key2value.get k <;> simp

theorem hasValue_true_iff {m : BiMap K V} {v : V} :
    m.hasValue v = true ↔ ∃ k, m.value2key.get v = some k := by
  rw [hasValue_eq]
  cases m.value2key.get v <;> simp

theorem WF_empty : (empty : BiMap K V).WF := by
  refine ⟨List.nodup_nil, List.nodup_nil, ?_, ?_⟩ <;> intro p hp <;> simp [empty] at hp

/-- Writing a fresh pair into both tables preserves the invariant. -/
theorem WF.insert {m : BiMap K V} (h : m.WF) {k : K} {v : V}
    (hk : m.key2value.get k = none) (hv : m.value2key.get v = none) :
    WF ⟨m.key2value.set k v, m.value2key.set v k⟩ := by
  have hsetk : m.key2value.set k v = m.key2value ++ [(k, v)] := by
    unfold JsMap.set JsMap.has
    simp [hk]
  have hsetv : m.value2key.set v k = m.value2key ++ [(v, k)] := by
    unfold JsMap.set JsMap.has
    simp [hv]
  refine ⟨JsMap.nodup_set h.nodup_keys hk v, JsMap.nodup_set h.nodup_values hv k, ?_, ?_⟩
  · intro p hp
    rw [hsetk] at hp
    show JsMap.get (m.value2key.set v k) p.2 = some p.1
    rw [JsMap.get_set]
    rcases List.mem_append.mp hp with hp | hp
    · have hmir := h.mirror_kv p hp
      have hne : p.2 ≠ v := by
        intro he
        rw [he, hv] at hmir
        exact Option.noConfusion hmir
      rw [if_neg hne]
      exact hmir
    · simp only [List.mem_singleton] at hp
      subst hp
      simp
  · intro q hq
    rw [hsetv] at hq
    show JsMap.get (m.key2value.set k v) q.2 = some q.1
    rw [JsMap.get_set]
    rcases List.mem_append.mp hq with hq | hq
    · have hmir := h.mirror_vk q hq
      have hne : q.2 ≠ k := by
        intro he
        rw [he, hk] at hmir
        exact Option.noConfusion hmir
      rw [if_neg hne]
      exact hmir
    · simp only [List.mem_singleton] at hq
      subst hq
      simp

theorem deleteKey_of_get_some {m : BiMap K V} {k : K} {v : V}
    (h : m.key2value.get k = some v) :
    m.deleteKey k = (⟨m.key2value.delete k, m.value2key.delete v⟩, true) := by
  unfold BiMap.deleteKey
  rw [h]

theorem deleteKey_of_get_none {m : BiMap K V} {k : K}
    (h : m.key2value.get k = none) : m.deleteKey k = (m, false) := by
  unfold BiMap.deleteKey
  rw [h]

theorem deleteValue_of_get_some {m : BiMap K V} {v : V} {k : K}
    (h : m.value2key.get v = some k) :
    m.deleteValue v = (⟨m.key2value.delete k, m.value2key.delete v⟩, true) := by
  unfold BiMap.deleteValue
  rw [h]

theorem deleteValue_of_get_none {m : BiMap K V} {v : V}
    (h : m.value2key.get v = none) : m.deleteValue v = (m, false) := by
  unfold BiMap.deleteValue
  rw [h]

theorem WF.deleteKey {m : BiMap K V} (h : m.WF) (k : K) : (m.deleteKey k).1.WF := by
  cases hg : m.key2value.get k with
  | none =>
    rw [deleteKey_of_get_none hg]
    exact h
  | some v0 =>
    rw [deleteKey_of_get_some hg]
    have hv0 : m.value2key.get v0 = some k := (h.get_iff k v0).mp hg
    refine ⟨JsMap.nodup_delete h.nodup_keys k, JsMap.nodup_delete h.nodup_values v0, ?_, ?_⟩
    · intro p hp
      rcases JsMap.mem_delete.mp hp with ⟨hpm, hpne⟩
      have hmir := h.mirror_kv p hpm
      show JsMap.get (m.value2key.delete v0) p.2 = some p.1
      rw [JsMap.get_delete]
      have hne : p.2 ≠ v0 := by
        intro he
        rw [he] at hmir
        exact hpne (Option.some.inj (hmir.symm.trans hv0))
      rw [if_neg hne]
      exact hmir
    · intro q hq
      rcases JsMap.mem_delete.mp hq with ⟨hqm, hqne⟩
      have hmir := h.mirror_vk q hqm
      show JsMap.get (m.key2value.delete k) q.2 = some q.1
      rw [JsMap.get_delete]
      have hne : q.2 ≠ k := by
        intro he
        rw [he] at hmir
        exact hqne (Option.some.inj (hmir.symm.trans hg))
      rw [if_neg hne]
      exact hmir

theorem WF.deleteValue {m : BiMap K V} (h : m.WF) (v : V) : (m.deleteValue v).1.WF := by
  cases hg : m.value2key.get v with
  | none =>
    rw [deleteValue_of_get_none hg]
    exact h
  | some k0 =>
    rw [deleteValue_of_get_some hg]
    have hk0 : m.key2value.get k0 = some v := (h.get_iff k0 v).mpr hg
    refine ⟨JsMap.nodup_delete h.nodup_keys k0, JsMap.nodup_delete h.nodup_values v, ?_, ?_⟩
    · intro p hp
      rcases JsMap.mem_delete.mp hp with ⟨hpm, hpne⟩
      have hmir := h.mirror_kv p hpm
      show JsMap.get (m.value2key.delete v) p.2 = some p.1
      rw [JsMap.get_delete]
      have hne : p.2 ≠ v := by
        intro he
        rw [he] at hmir
        exact hpne (Option.some.inj (hmir.symm.trans hg))
      rw [if_neg hne]
      exact hmir
    · intro q hq
      rcases JsMap.mem_delete.mp hq with ⟨hqm, hqne⟩
      have hmir := h.mirror_vk q hqm
      show JsMap.get (m.key2value.delete k0) q.2 = some q.1
      rw [JsMap.get_delete]
      have hne : q.2 ≠ k0 := by
        intro he
        rw [he] at hmir
        exact hqne (Option.some.inj (hmir.symm.trans hk0))
      rw [if_neg hne]
      exact hmir

/-- The state of `set` after the key eviction (proof-side name for the
first conditional of the method body). -/
def step1 (m : BiMap K V) (k : K) : BiMap K V :=
  if m.hasKey k then (m.deleteKey k).1 else m

/-- The state of `set` after both evictions. -/
def step2 (m : BiMap K V) (k : K) (v : V) : BiMap K V :=
  if (step1 m k).hasValue v then ((step1 m k).deleteValue v).1 else step1 m k

theorem set_eq_steps (m : BiMap K V) (k : K) (v : V) :
    m.set k v =
      ⟨(step2 m k v).key2value.set k v, (step2 m k v).value2key.set v k⟩ := rfl

theorem WF.step1 {m : BiMap K V} (h : m.WF) (k : K) : (BiMap.step1 m k).WF := by
  unfold BiMap.step1
  split
  · exact h.deleteKey k
  · exact h

theorem get_step1_key (m : BiMap K V) (k : K) :
    (step1 m k).key2value.get k = none := by
  unfold step1
  by_cases hk : m.hasKey k
  · rw [if_pos hk]
    obtain ⟨v0, hv0⟩ := hasKey_true_iff.mp hk
    rw [deleteKey_of_get_some hv0]
    simp [JsMap.get_delete]
  · rw [if_neg hk]
    exact hasKey_false_iff.mp (Bool.not_eq_true _ ▸ hk)

theorem WF.step2 {m : BiMap K V} (h : m.WF) (k : K) (v : V) :
    (BiMap.step2 m k v).WF := by
  unfold BiMap.step2
  split
  · exact (h.step1 k).deleteValue v
  · exact h.step1 k

theorem get_step2_key (m : BiMap K V) (k : K) (v : V) :
    (step2 m k v).key2value.get k = none := by
  unfold step2
  by_cases hv : (step1 m k).hasValue v
  · rw [if_pos hv]
    obtain ⟨k0, hk0⟩ := hasValue_true_iff.mp hv
    rw [deleteValue_of_get_some hk0]
    rw [JsMap.get_delete]
    split
    · rfl
    · exact get_step1_key m k
  · rw [if_neg hv]
    exact get_step1_key m k

theorem get_step2_value (m : BiMap K V) (k : K) (v : V) :
    (step2 m k v).value2key.get v = none := by
  unfold step2
  by_cases hv : (step1 m k).hasValue v
  · rw [if_pos hv]
    obtain ⟨k0, hk0⟩ := hasValue_true_iff.mp hv
    rw [deleteValue_of_get_some hk0]
    simp [JsMap.get_delete]
  · rw [if_neg hv]
    exact hasValue_false_iff.mp (Bool.not_eq_true _ ▸ hv)

theorem WF.set {m : BiMap K V} (h : m.WF) (k : K) (v : V) : (m.set k v).WF := by
  rw [set_eq_steps]
  exact (h.step2 k v).insert (get_step2_key m k v) (get_step2_value m k v)

/-- The error component of `add` follows the key-first, value-second
conflict check of the source. -/
theorem add_snd (m : BiMap K V) (k : K) (v : V) :
    (m.add k v).2 =
      if m.hasKey k then some (.keyConflict k)
      else if m.hasValue v then some (.valueConflict v)
      else none := by
  unfold BiMap.add
  by_cases hk : m.hasKey k
  · simp [hk]
  · by_cases hv : m.hasValue v <;> simp [hk, hv]

/-- The state component of `add`: untouched on conflict, a fresh insert
otherwise. -/
theorem add_fst (m : BiMap K V) (k : K) (v : V) :
    (m.add k v).1 =
      if m.hasKey k ∨ m.hasValue v then m
      else ⟨m.key2value.set k v, m.value2key.set v k⟩ := by
  unfold BiMap.add
  by_cases hk : m.hasKey k
  · simp [hk]
  · by_cases hv : m.hasValue v <;> simp [hk, hv]

theorem add_ok_iff (m : BiMap K V) (k : K) (v : V) :
    (m.add k v).2 = none ↔ (m.hasKey k = false ∧ m.hasValue v = false) := by
  rw [add_snd]
  by_cases hk : m.hasKey k
  · simp [hk]
  · by_cases hv : m.hasValue v <;> simp [hk, hv]

theorem WF.add {m : BiMap K V} (h : m.WF) (k : K) (v : V) : (m.add k v).1.WF := by
  rw [add_fst]
  split
  · exact h
  · rename_i hcon
    push_neg at hcon
    refine h.insert ?_ ?_
    · exact hasKey_false_iff.mp (Bool.not_eq_true _ ▸ hcon.1)
    · exact hasValue_false_iff.mp (Bool.not_eq_true _ ▸ hcon.2)

theorem WF.setAllList {m : BiMap K V} (h : m.WF) (ps : List (K × V)) :
    (setAllList m ps).WF := by
  induction ps generalizing m with
  | nil => exact h
  | cons p rest ih =>
    obtain ⟨k, v⟩ := p
    exact ih (h.set k v)

theorem WF.setAll {m : BiMap K V} (h : m.WF) (s : Source K V) :
    (m.setAll s).WF := by
  cases s <;> exact h.setAllList _

theorem addAllList_cons (m : BiMap K V) (k : K) (v : V) (rest : List (K × V)) :
    addAllList m ((k, v) :: rest) =
      match m.add k v with
      | (m', none) => addAllList m' rest
      | (m', some e) => (m', some e) := rfl

theorem WF.addAllList {m : BiMap K V} (h : m.WF) (ps : List (K × V)) :
    (addAllList m ps).1.WF := by
  induction ps generalizing m with
  | nil => exact h
  | cons p rest ih =>
    obtain ⟨k, v⟩ := p
    rw [addAllList_cons]
    rcases hadd : m.add k v with ⟨m', e⟩
    have hwf' : m'.WF := by
      have hw := h.add k v
      rw [hadd] at hw
      exact hw
    cases e with
    | none => exact ih hwf'
    | some e => exact hwf'

theorem WF.addAll {m : BiMap K V} (h : m.WF) (s : Source K V) :
    (m.addAll s).1.WF := by
  cases s <;> exact h.addAllList _

theorem WF.deleteKeys {m : BiMap K V} (h : m.WF) (ks : List K) :
    (m.deleteKeys ks).1.WF := by
  induction ks generalizing m with
  | nil => exact h
  | cons k rest ih => exact ih (h.deleteKey k)

theorem WF.deleteValues {m : BiMap K V} (h : m.WF) (vs : List V) :
    (m.deleteValues vs).1.WF := by
  induction vs generalizing m with
  | nil => exact h
  | cons v rest ih => exact ih (h.deleteValue v)

theorem size_step1 {m : BiMap K V} (h : m.WF) (k : K) :
    (step1 m k).size + (if m.hasKey k then 1 else 0) = m.size := by
  unfold BiMap.step1
  by_cases hk : m.hasKey k
  · rw [if_pos hk, if_pos hk]
    obtain ⟨v0, hv0⟩ := hasKey_true_iff.mp hk
    rw [deleteKey_of_get_some hv0]
    exact JsMap.length_delete_of_get_some h.nodup_keys hv0
  · rw [if_neg hk, if_neg hk]
    simp

theorem size_step2 {m : BiMap K V} (h : m.WF) (k : K) (v : V) :
    (step2 m k v).size + (if (step1 m k).hasValue v then 1 else 0) =
      (step1 m k).size := by
  unfold BiMap.step2
  by_cases hv : (step1 m k).hasValue v
  · rw [if_pos hv, if_pos hv]
    obtain ⟨k0, hk0⟩ := hasValue_true_iff.mp hv
    rw [deleteValue_of_get_some hk0]
    have hkv : (step1 m k).key2value.get k0 = some v :=
      ((h.step1 k).get_iff k0 v).mpr hk0
    exact JsMap.length_delete_of_get_some (h.step1 k).nodup_keys hkv
  · rw [if_neg hv, if_neg hv]
    simp

theorem size_set (m : BiMap K V) (k : K) (v : V) :
    (m.set k v).size = (step2 m k v).size + 1 := by
  rw [set_eq_steps]
  show ((step2 m k v).key2value.set k v).length = _
  rw [JsMap.length_set]
  have hhas : (step2 m k v).key2value.has k = false := by
    unfold JsMap.has
    rw [get_step2_key]
    rfl
  rw [hhas]
  simp [size]

/-- The net size change of `set` is in {+1, 0, -1}. -/
theorem set_size_cases {m : BiMap K V} (h : m.WF) (k : K) (v : V) :
    (m.set k v).size = m.size + 1 ∨ (m.set k v).size = m.size ∨
      (m.set k v).size + 1 = m.size := by
  have h1 := size_step1 h k
  have h2 := size_step2 h k v
  have h3 := size_set m k v
  by_cases hk : m.hasKey k <;> by_cases hv : (step1 m k).hasValue v <;>
    simp [hk, hv] at h1 h2 <;> omega

/-- When the exact pair `(k, v)` is already stored, `set k v` removes it
from both tables and re-appends it at the end of each. -/
theorem set_entries_of_mem {m : BiMap K V} {k : K} {v : V}
    (hkv : m.key2value.get k = some v) :
    (m.set k v).key2value = m.key2value.delete k ++ [(k, v)] ∧
      (m.set k v).value2key = m.value2key.delete v ++ [(v, k)] := by
  have hk : m.hasKey k = true := by
    rw [hasKey_eq, hkv]
    rfl
  have hstep1 : step1 m k = ⟨m.key2value.delete k, m.value2key.delete v⟩ := by
    unfold BiMap.step1
    rw [if_pos hk, deleteKey_of_get_some hkv]
  have hvfalse : (step1 m k).hasValue v = false := by
    rw [hstep1, hasValue_eq]
    show ((m.value2key.delete v).get v).isSome = false
    rw [JsMap.get_delete]
    simp
  have hstep2 : step2 m k v = step1 m k := by
    unfold BiMap.step2
    rw [hvfalse]
    simp
  rw [set_eq_steps, hstep2, hstep1]
  constructor
  · show JsMap.set (m.key2value.delete k) k v = _
    unfold JsMap.set JsMap.has
    rw [JsMap.get_delete]
    simp
  · show JsMap.set (m.value2key.delete v) v k = _
    unfold JsMap.set JsMap.has
    rw [JsMap.get_delete]
    simp

/-- `getValue` of the pair just written by `set`. -/
theorem getValue_set_self (m : BiMap K V) (k : K) (v : V) :
    (m.set k v).getValue k = some v := by
  rw [set_eq_steps, getValue_eq]
  show JsMap.get ((step2 m k v).key2value.set k v) k = some v
  rw [JsMap.get_set]
  simp

/-- `getKey` of the pair just written by `set`. -/
theorem getKey_set_self (m : BiMap K V) (k : K) (v : V) :
    (m.set k v).getKey v = some k := by
  rw [set_eq_steps, getKey_eq]
  show JsMap.get ((step2 m k v).value2key.set v k) v = some k
  rw [JsMap.get_set]
  simp

/-- After a successful `add`, a key is present iff it is the added key or
was present before. -/
theorem add_ok_hasKey {m : BiMap K V} {k : K} {v : V}
    (hok : (m.add k v).2 = none) (x : K) :
    (m.add k v).1.hasKey x = true ↔ (x = k ∨ m.hasKey x = true) := by
  obtain ⟨hk, hv⟩ := (add_ok_iff m k v).mp hok
  rw [add_fst, if_neg (by simp [hk, hv])]
  show ((m.key2value.set k v).get x).isSome = true ↔ _
  rw [JsMap.get_set]
  by_cases hxk : x = k
  · simp [hxk]
  · simp [hxk, hasKey_eq]

/-- After a successful `add`, a value is present iff it is the added
value or was present before. -/
theorem add_ok_hasValue {m : BiMap K V} {k : K} {v : V}
    (hok : (m.add k v).2 = none) (y : V) :
    (m.add k v).1.hasValue y = true ↔ (y = v ∨ m.hasValue y = true) := by
  obtain ⟨hk, hv⟩ := (add_ok_iff m k v).mp hok
  rw [add_fst, if_neg (by simp [hk, hv])]
  show ((m.value2key.set v k).get y).isSome = true ↔ _
  rw [JsMap.get_set]
  by_cases hyv : y = v
  · simp [hyv]
  · simp [hyv, hasValue_eq]

/-- A successful `addAll` run certifies that the batch had pairwise
distinct keys, pairwise distinct values, and no conflict with the
starting container. -/
theorem addAllList_ok_spec :
    ∀ (ps : List (K × V)) (m m' : BiMap K V),
      addAllList m ps = (m', none) →
      (ps.map Prod.fst).Nodup ∧ (ps.map Prod.snd).Nodup ∧
        ∀ p ∈ ps, m.hasKey p.1 = false ∧ m.hasValue p.2 = false := by
  intro ps
  induction ps with
  | nil =>
    intro m m' _
    refine ⟨List.nodup_nil, List.nodup_nil, ?_⟩
    intro p hp
    simp at hp
  | cons q rest ih =>
    intro m m' hrun
    obtain ⟨k, v⟩ := q
    rw [addAllList_cons] at hrun
    rcases hadd : m.add k v with ⟨m1, e⟩
    rw [hadd] at hrun
    cases e with
    | some e => simp at hrun
    | none =>
      have hok : (m.add k v).2 = none := by rw [hadd]
      obtain ⟨hk, hv⟩ := (add_ok_iff m k v).mp hok
      obtain ⟨hnd1, hnd2, hfresh⟩ := ih m1 m' hrun
      have hm1 : m1 = (m.add k v).1 := by rw [hadd]
      have hfresh' : ∀ p ∈ rest, p.1 ≠ k ∧ p.2 ≠ v ∧
          m.hasKey p.1 = false ∧ m.hasValue p.2 = false := by
        intro p hp
        obtain ⟨hpk, hpv⟩ := hfresh p hp
        rw [hm1] at hpk hpv
        have hknot : ¬ (p.1 = k ∨ m.hasKey p.1 = true) := by
          rw [← add_ok_hasKey hok p.1, hpk]
          simp
        have hvnot : ¬ (p.2 = v ∨ m.hasValue p.2 = true) := by
          rw [← add_ok_hasValue hok p.2, hpv]
          simp
        push_neg at hknot hvnot
        exact ⟨hknot.1, hvnot.1, Bool.not_eq_true _ ▸ hknot.2, Bool.not_eq_true _ ▸ hvnot.2⟩
      refine ⟨?_, ?_, ?_⟩
      · rw [List.map_cons, List.nodup_cons]
        refine ⟨?_, hnd1⟩
        intro hmem
        obtain ⟨p, hp, hpk⟩ := List.mem_map.mp hmem
        exact (hfresh' p hp).1 hpk
      · rw [List.map_cons, List.nodup_cons]
        refine ⟨?_, hnd2⟩
        intro hmem
        obtain ⟨p, hp, hpv⟩ := List.mem_map.mp hmem
        exact (hfresh' p hp).2.1 hpv
      · intro p hp
        rcases List.mem_cons.mp hp with hp | hp
        · subst hp
          exact ⟨hk, hv⟩
        · exact ⟨(hfresh' p hp).2.2.1, (hfresh' p hp).2.2.2⟩

/-- Running `addAll` on a concatenation: the second half runs only when
the first half succeeded, from the state the first half produced. -/
theorem addAllList_append (m : BiMap K V) (ps qs : List (K × V)) :
    addAllList m (ps ++ qs) =
      match addAllList m ps with
      | (m1, none) => addAllList m1 qs
      | (m1, some e) => (m1, some e) := by
  induction ps generalizing m with
  | nil => rfl
  | cons q rest ih =>
    obtain ⟨k, v⟩ := q
    rw [List.cons_append, addAllList_cons, addAllList_cons]
    rcases hadd : m.add k v with ⟨m1, e⟩
    cases e with
    | none => exact ih m1
    | some e => rfl

/-- Every reachable state satisfies the dual-table invariant. -/
theorem reach_wf {m : BiMap K V} (h : Reachable m) : m.WF := by
  induction h with
  | empty => exact WF_empty
  | set m k v _ ih => exact ih.set k v
  | add m k v _ ih => exact ih.add k v
  | setAll m s _ ih => exact ih.setAll s
  | addAll m s _ ih => exact ih.addAll s
  | deleteKey m k _ ih => exact ih.deleteKey k
  | deleteValue m v _ ih => exact ih.deleteValue v
  | deleteKeys m ks _ ih => exact ih.deleteKeys ks
  | deleteValues m vs _ ih => exact ih.deleteValues vs
  | clear m _ _ => exact WF_empty
  | clone m _ ih => exact ih

/-- A failed `add` returns the untouched container. -/
theorem add_error_fst {m : BiMap K V} {k : K} {v : V} {e : BiMapError K V}
    (h : (m.add k v).2 = some e) : (m.add k v).1 = m := by
  by_cases hk : m.hasKey k
  · rw [add_fst, if_pos (Or.inl hk)]
  · by_cases hv : m.hasValue v
    · rw [add_fst, if_pos (Or.inr hv)]
    · rw [add_snd, if_neg hk, if_neg hv] at h
      exact absurd h (by simp)

/-- Test fixture `{one: 1}`. -/
def exOne : BiMap String Nat :=
  (BiMap.empty).set "one" 1

/-- Test fixture `{one: 1, two: 2}`. -/
def exOneTwo : BiMap String Nat :=
  ((BiMap.empty).set "one" 1).set "two" 2

/-- Test fixture `{a: 1, b: 2}`. -/
def exAB : BiMap String Nat :=
  ((BiMap.empty).set "a" 1).set "b" 2

/-- C1: in every reachable `BiMap` state the two tables are exact
inverses — `forward[k] = v` iff `inverse[v] = k` — hence a `getValue`
hit maps back to its key through `getKey`, and symmetrically. -/
theorem bijection_invariant_of_reachable {m : BiMap K V} (h : Reachable m)
    (k : K) (v : V) :
    (m.key2value.get k = some v ↔ m.value2key.get v = some k) ∧
    (m.getValue k = some v → m.getKey v = some k) ∧
    (m.getKey v = some k → m.getValue k = some v) := by
  have hw := reach_wf h
  refine ⟨hw.get_iff k v, ?_, ?_⟩
  · intro hg
    exact (hw.get_iff k v).mp hg
  · intro hg
    exact (hw.get_iff k v).mpr hg

/-- Witness: the bijection theorem applied at the reachable state
`{one: 1}`. -/
theorem bijection_invariant_witness :
    (((BiMap.empty : BiMap String Nat).set "one" 1).key2value.get "one" = some 1 ↔
      ((BiMap.empty : BiMap String Nat).set "one" 1).value2key.get 1 = some "one") ∧
    (((BiMap.empty : BiMap String Nat).set "one" 1).getValue "one" = some 1 →
      ((BiMap.empty : BiMap String Nat).set "one" 1).getKey 1 = some "one") :=
  ⟨(bijection_invariant_of_reachable
      (Reachable.set BiMap.empty "one" 1 Reachable.empty) "one" 1).1,
   (bijection_invariant_of_reachable
      (Reachable.set BiMap.empty "one" 1 Reachable.empty) "one" 1).2.1⟩

/-- C2: after `set k v` exactly one pair has key `k` and exactly one
pair has value `v`, both being `(k, v)` itself, and the size changes by
+1, 0 or -1. -/
theorem set_upsert_postcondition {m : BiMap K V} (h : m.WF) (k : K) (v : V) :
    (m.set k v).getValue k = some v ∧
    (m.set k v).getKey v = some k ∧
    (m.set k v).keys.count k = 1 ∧
    (m.set k v).values.count v = 1 ∧
    ((m.set k v).size = m.size + 1 ∨ (m.set k v).size = m.size ∨
      (m.set k v).size + 1 = m.size) := by
  refine ⟨getValue_set_self m k v, getKey_set_self m k v, ?_, ?_,
    set_size_cases h k v⟩
  · have hw := h.set k v
    have hmem : k ∈ (m.set k v).keys :=
      List.mem_map_of_mem Prod.fst
        (JsMap.get_some_mem (getValue_set_self m k v))
    exact List.count_eq_one_of_mem hw.nodup_keys hmem
  · have hw := h.set k v
    have hmem : v ∈ (m.set k v).values :=
      List.mem_map_of_mem Prod.fst
        (JsMap.get_some_mem (getKey_set_self m k v))
    exact List.count_eq_one_of_mem hw.nodup_values hmem

/-- Witness: the upsert eviction example — `set('a', 2)` on `{a: 1, b: 2}`
yields exactly `{a: 2}`, size going from 2 to 1. -/
theorem set_upsert_witness :
    exAB.WF ∧
    (exAB.set "a" 2).entries = [("a", 2)] ∧
    exAB.size = 2 ∧ (exAB.set "a" 2).size = 1 ∧
    ((exAB.set "a" 2).getValue "a" = some 2 ∧
     (exAB.set "a" 2).getKey 2 = some "a" ∧
     (exAB.set "a" 2).keys.count "a" = 1 ∧
     (exAB.set "a" 2).values.count 2 = 1 ∧
     ((exAB.set "a" 2).size = exAB.size + 1 ∨ (exAB.set "a" 2).size = exAB.size ∨
       (exAB.set "a" 2).size + 1 = exAB.size)) :=
  ⟨by decide, by decide, by decide, by decide,
   set_upsert_postcondition (by decide) "a" 2⟩

/-- C3: `add` fails with `keyConflict` iff the key already exists;
failing that, with `valueConflict` iff the value already exists (the key
check runs first); with neither conflict it inserts the pair. -/
theorem add_conflict_selection (m : BiMap K V) (k : K) (v : V) :
    ((m.add k v).2 = some (.keyConflict k) ↔ m.hasKey k = true) ∧
    (m.hasKey k = false →
      ((m.add k v).2 = some (.valueConflict v) ↔ m.hasValue v = true)) ∧
    (m.hasKey k = false → m.hasValue v = false →
      (m.add k v).2 = none ∧ (m.add k v).1.getValue k = some v ∧
        (m.add k v).1.getKey v = some k) := by
  refine ⟨?_, ?_, ?_⟩
  · rw [add_snd]
    by_cases hk : m.hasKey k
    · simp [hk]
    · by_cases hv : m.hasValue v <;> simp [hk, hv]
  · intro hk
    rw [add_snd, hk]
    by_cases hv : m.hasValue v <;> simp [hv]
  · intro hk hv
    refine ⟨(add_ok_iff m k v).mpr ⟨hk, hv⟩, ?_, ?_⟩
    · rw [add_fst, if_neg (by simp [hk, hv])]
      show JsMap.get (m.key2value.set k v) k = some v
      rw [JsMap.get_set]
      simp
    · rw [add_fst, if_neg (by simp [hk, hv])]
      show JsMap.get (m.value2key.set v k) v = some k
      rw [JsMap.get_set]
      simp

/-- Witness: on `{one: 1}`, `add('one', 2)` raises the key conflict and
`add('two', 1)` the value conflict. -/
theorem add_conflict_selection_witness :
    (exOne.add "one" 2).2 = some (.keyConflict "one") ∧
    (exOne.add "two" 1).2 = some (.valueConflict 1) :=
  ⟨(add_conflict_selection exOne "one" 2).1.mpr (by decide),
   ((add_conflict_selection exOne "two" 1).2.1 (by decide)).mpr (by decide)⟩

/-- C4: a failed `add` (either conflict) leaves the container exactly as
it was — no partial write of one table. -/
theorem add_failure_atomic (m : BiMap K V) (k : K) (v : V) (e : BiMapError K V) :
    (m.add k v).2 = some e → (m.add k v).1 = m :=
  fun herr => add_error_fst herr

/-- Witness: both failure modes on `{one: 1}` leave the container equal
to `{one: 1}`. -/
theorem add_failure_atomic_witness :
    (exOne.add "one" 2).1 = exOne ∧ (exOne.add "two" 1).1 = exOne :=
  ⟨add_failure_atomic exOne "one" 2 (.keyConflict "one") (by decide),
   add_failure_atomic exOne "two" 1 (.valueConflict 1) (by decide)⟩

/-- C5: `deleteKey k` reports whether the key was present; on a hit the
pair disappears from both tables while every other pair is untouched; on
a miss the container is unchanged. -/
theorem deleteKey_spec (m : BiMap K V) (k : K) :
    ((m.deleteKey k).2 = m.hasKey k) ∧
    ((m.deleteKey k).1.getValue k = none) ∧
    (∀ k', k' ≠ k → (m.deleteKey k).1.getValue k' = m.getValue k') ∧
    (∀ v, m.getValue k = some v → (m.deleteKey k).1.getKey v = none) ∧
    (∀ v, (∀ v0, m.getValue k = some v0 → v ≠ v0) →
      (m.deleteKey k).1.getKey v = m.getKey v) ∧
    (m.hasKey k = false → (m.deleteKey k).1 = m) := by
  cases hg : m.key2value.get k with
  | none =>
    have hk : m.hasKey k = false := by
      rw [hasKey_eq, hg]
      rfl
    rw [deleteKey_of_get_none hg]
    exact ⟨hk.symm, hg, fun _ _ => rfl, fun v hv => by
        rw [getValue_eq, hg] at hv
        exact absurd hv (by simp),
      fun _ _ => rfl, fun _ => rfl⟩
  | some v0 =>
    have hk : m.hasKey k = true := by
      rw [hasKey_eq, hg]
      rfl
    rw [deleteKey_of_get_some hg]
    refine ⟨hk.symm, ?_, ?_, ?_, ?_, ?_⟩
    · show JsMap.get (m.key2value.delete k) k = none
      rw [JsMap.get_delete]
      simp
    · intro k' hk'
      show JsMap.get (m.key2value.delete k) k' = _
      rw [JsMap.get_delete, if_neg hk']
      rfl
    · intro v hv
      rw [getValue_eq, hg] at hv
      obtain rfl : v0 = v := Option.some.inj hv
      show JsMap.get (m.value2key.delete v0) v0 = none
      rw [JsMap.get_delete]
      simp
    · intro v hv
      have hne : v ≠ v0 := hv v0 (by rw [getValue_eq, hg])
      show JsMap.get (m.value2key.delete v0) v = _
      rw [JsMap.get_delete, if_neg hne]
      rfl
    · intro hfalse
      rw [hk] at hfalse
      exact absurd hfalse (by simp)

/-- Witness: deleting `'one'` from `{one: 1, two: 2}` succeeds and
leaves `{two: 2}`; deleting it again fails and changes nothing. -/
theorem deleteKey_spec_witness :
    (exOneTwo.deleteKey "one").2 = true ∧
    (exOneTwo.deleteKey "one").1.entries = [("two", 2)] ∧
    ((exOneTwo.deleteKey "one").1.deleteKey "one").2 = false ∧
    ((exOneTwo.deleteKey "one").1.deleteKey "one").1 = (exOneTwo.deleteKey "one").1 ∧
    (exOneTwo.deleteKey "one").1.getValue "two" = exOneTwo.getValue "two" :=
  ⟨by decide, by decide, by decide,
   (deleteKey_spec (exOneTwo.deleteKey "one").1 "one").2.2.2.2.2 (by decide),
   (deleteKey_spec exOneTwo "one").2.2.1 "two" (by decide)⟩

/-- C6: `from` is `addAll` on a fresh container; every source shape
with the same pair sequence builds the identical container; a repeated
key or repeated value in the source forces a conflict error. -/
theorem from_strict_construction (s : Source K V) (ps : List (K × V))
    (b : BiMap K V) :
    from' s = (empty : BiMap K V).addAll s ∧
    from' (Source.map ps) = (from' (Source.array ps) : BiMap K V × _) ∧
    from' (Source.record ps) = (from' (Source.array ps) : BiMap K V × _) ∧
    from' (Source.bimap b) = from' (Source.array b.entries) ∧
    (¬(ps.map Prod.fst).Nodup ∨ ¬(ps.map Prod.snd).Nodup →
      (from' (Source.array ps) : BiMap K V × _).2 ≠ none) := by
  refine ⟨rfl, rfl, rfl, rfl, ?_⟩
  intro hdup hnone
  obtain ⟨hnd1, hnd2, _⟩ :=
    addAllList_ok_spec ps (empty : BiMap K V)
      (addAllList (empty : BiMap K V) ps).1
      (by
        have h2 : (addAllList (empty : BiMap K V) ps).2 = none := hnone
        rw [← h2])
  rcases hdup with hdup | hdup
  · exact hdup hnd1
  · exact hdup hnd2

/-- Witness: the three non-container shapes over `{one: 1, two: 2}`
answer queries identically, and a duplicate-key array source fails. -/
theorem from_strict_construction_witness :
    (from' (Source.array [(("a" : String), (1 : Nat)), ("a", 2)])).2 ≠ none ∧
    (from' (Source.map [(("one" : String), (1 : Nat)), ("two", 2)])).1.getValue "one" = some 1 ∧
    (from' (Source.array [(("one" : String), (1 : Nat)), ("two", 2)])).1.getValue "one" = some 1 ∧
    (from' (Source.record [(("one" : String), (1 : Nat)), ("two", 2)])).1.getValue "one" = some 1 ∧
    (from' (Source.map [(("one" : String), (1 : Nat)), ("two", 2)])).1.getKey 2 = some "two" ∧
    (from' (Source.record [(("one" : String), (1 : Nat)), ("two", 2)])).1.getKey 2 = some "two" ∧
    (from' (Source.record [(("one" : String), (1 : Nat)), ("two", 2)])).1.hasKey "one" = true ∧
    (from' (Source.record [(("one" : String), (1 : Nat)), ("two", 2)])).1.hasValue 2 = true :=
  ⟨(from_strict_construction (Source.array [("a", 1), ("a", 2)])
      [(("a" : String), (1 : Nat)), ("a", 2)] BiMap.empty).2.2.2.2
      (Or.inl (by decide)),
   by decide, by decide, by decide, by decide, by decide, by decide, by decide⟩

/-- C7: `addAll` walks the batch in order; at the first conflicting pair
it stops with that pair's error, keeping everything applied so far and
applying neither the failing pair nor any later one. -/
theorem addAll_abort_at_first_conflict (m : BiMap K V) (ps qs : List (K × V))
    (k : K) (v : V) (e : BiMapError K V)
    (hok : (addAllList m ps).2 = none)
    (herr : ((addAllList m ps).1.add k v).2 = some e) :
    m.addAll (Source.array (ps ++ (k, v) :: qs)) = ((addAllList m ps).1, some e) := by
  show addAllList m (ps ++ (k, v) :: qs) = _
  rw [addAllList_append]
  rcases hres : addAllList m ps with ⟨m1, e1⟩
  rw [hres] at hok herr
  obtain rfl : e1 = none := hok
  show addAllList m1 ((k, v) :: qs) = (m1, some e)
  rw [addAllList_cons]
  have hfst : (m1.add k v).1 = m1 := add_error_fst herr
  rcases hadd : m1.add k v with ⟨m2, e2⟩
  rw [hadd] at herr hfst
  obtain rfl : e2 = some e := herr
  obtain rfl : m2 = m1 := hfst
  rfl

/-- Witness: `addAll` of `[one↦1, one↦2, x↦9]` on an empty container
stops at the repeated key, keeping `{one: 1}` and never adding `x`. -/
theorem addAll_abort_witness :
    (BiMap.empty : BiMap String Nat).addAll
        (Source.array ([("one", 1)] ++ ("one", 2) :: [("x", 9)])) =
      ((addAllList (BiMap.empty : BiMap String Nat) [("one", 1)]).1,
        some (.keyConflict "one")) :=
  addAll_abort_at_first_conflict BiMap.empty [("one", 1)] [("x", 9)] "one" 2
    (.keyConflict "one") (by decide) (by decide)

/-- C8: `clone` returns a container with the identical pair set; it is an
independent value of the pure model, so mutating the clone — here,
deleting `'one'` from a clone of `{one: 1, two: 2}` — leaves the original
container's pair set intact. -/
theorem clone_independent (m : BiMap K V) :
    (m.clone = m ∧ m.clone.entries = m.entries ∧ m.clone.size = m.size) ∧
    ((exOneTwo.clone.deleteKey "one").1.hasKey "one" = false ∧
      (exOneTwo.clone.deleteKey "one").1.hasValue 1 = false ∧
      exOneTwo.hasKey "one" = true ∧ exOneTwo.hasValue 1 = true) :=
  ⟨⟨rfl, rfl, rfl⟩, by decide, by decide, by decide, by decide⟩

/-- C9: lookups are total — a missing key or value answers `none`
rather than raising an error, and a stored pair is found by both
lookups. -/
theorem lookup_total {m : BiMap K V} (h : m.WF) (k : K) (v : V) :
    (m.getValue k = none ↔ m.hasKey k = false) ∧
    (m.getKey v = none ↔ m.hasValue v = false) ∧
    ((k, v) ∈ m.entries → m.getValue k = some v ∧ m.getKey v = some k) := by
  refine ⟨hasKey_false_iff.symm, hasValue_false_iff.symm, ?_⟩
  intro hmem
  have hg : m.key2value.get k = some v := JsMap.mem_get h.nodup_keys hmem
  exact ⟨hg, (h.get_iff k v).mp hg⟩

/-- Witness: on `{one: 1}`, `getValue('two')` and `getKey(2)` are both
`none`, not errors. -/
theorem lookup_total_witness :
    exOne.getValue "two" = none ∧ exOne.getKey 2 = none :=
  ⟨(lookup_total (by decide : exOne.WF) "two" 2).1.mpr (by decide),
   (lookup_total (by decide : exOne.WF) "two" 2).2.1.mpr (by decide)⟩

/-- C10: `set k v` on the already-present exact pair `(k, v)` keeps the
pair set and the size, but re-appends `(k, v)` at the end of the
iteration order of `entries`, `keys` and `values`. -/
theorem set_existing_pair_moves_to_end {m : BiMap K V} (h : m.WF) {k : K} {v : V}
    (hkv : m.getValue k = some v) :
    (m.set k v).entries = m.entries.delete k ++ [(k, v)] ∧
    (m.set k v).keys = (m.entries.delete k).keysList ++ [k] ∧
    (m.set k v).values = (m.value2key.delete v).keysList ++ [v] ∧
    (m.set k v).size = m.size ∧
    (∀ p : K × V, p ∈ (m.set k v).entries ↔ p ∈ m.entries) := by
  obtain ⟨hkv2, hvk2⟩ := set_entries_of_mem (m := m) hkv
  refine ⟨hkv2, ?_, ?_, ?_, ?_⟩
  · show ((m.set k v).key2value).keysList = _
    rw [hkv2]
    simp [JsMap.keysList, entries]
  · show ((m.set k v).value2key).keysList = _
    rw [hvk2]
    simp [JsMap.keysList, entries]
  · show ((m.set k v).key2value).length = m.key2value.length
    rw [hkv2, List.length_append]
    have := JsMap.length_delete_of_get_some h.nodup_keys (hkv : m.key2value.get k = some v)
    simpa using this
  · intro p
    obtain ⟨p1, p2⟩ := p
    show (p1, p2) ∈ (m.set k v).key2value ↔ (p1, p2) ∈ m.key2value
    rw [hkv2, List.mem_append, JsMap.mem_delete, List.mem_singleton]
    constructor
    · rintro (⟨hm, _⟩ | heq)
      · exact hm
      · rw [heq]
        exact JsMap.get_some_mem (hkv : m.key2value.get k = some v)
    · intro hm
      by_cases hpk : p1 = k
      · right
        subst hpk
        have hgp : m.key2value.get p1 = some p2 := JsMap.mem_get h.nodup_keys hm
        have : p2 = v := Option.some.inj ((hgp.symm.trans (hkv : m.key2value.get p1 = some v)))
        rw [this]
      · left
        exact ⟨hm, hpk⟩

/-- Witness: `set('a', 1)` on `{a: 1, b: 2}` keeps both pairs but moves
`a` to the back of the iteration order. -/
theorem set_existing_witness :
    (exAB.set "a" 1).entries = [("b", 2), ("a", 1)] ∧
    (exAB.set "a" 1).keys = ["b", "a"] ∧
    (exAB.set "a" 1).values = [2, 1] ∧
    (exAB.set "a" 1).entries = exAB.entries.delete "a" ++ [("a", 1)] ∧
    (exAB.set "a" 1).size = exAB.size ∧
    (("a", 1) ∈ (exAB.set "a" 1).entries ↔ ("a", 1) ∈ exAB.entries) :=
  ⟨by decide, by decide, by decide,
   (set_existing_pair_moves_to_end (by decide) (by decide)).1,
   (set_existing_pair_moves_to_end (by decide) (by decide)).2.2.2.1,
   (set_existing_pair_moves_to_end (by decide) (by decide)).2.2.2.2 ("a", 1)⟩

end BiMap
